import Mathlib

/-!
Verification of the AVL tree implementation (src/AVL.c, src/AVL.h, src/test.c).

The C code is shallowly embedded: an `AVLNode` pointer (possibly NULL) becomes
an inductive tree, the caller-supplied `compare_func_t` becomes a function
`cmp : α → α → Int` (only the sign of the result is ever inspected, exactly as
in the C code), and the optional `free_func_t` release capability becomes a
`Bool` flag together with an explicit list of the values passed to it.  All
heights are `Int`, matching the C `int` fields (no overflow is possible at the
magnitudes reachable here, so plain integers are a faithful model).

The repository's header (AVL.h) additionally declares a per-node `size` field
with `getSize`/`updateSize` prototypes, and the test driver calls
order-statistics functions (`findKthSmallest`, `findKthLargest`, `getRank`)
that are genuinely absent from src.  The mutators in src/AVL.c, however,
never write the `size` field at all; a second group of definitions below
re-embeds those same mutators over the full struct to make that observable,
and models only the genuinely absent order-statistics queries from the
specification.
-/

namespace AVL

/-- The `AVLNode` struct of AVL.h: `data`, `left`, `right`, `height`.
A NULL pointer is `nil`.  (The header also declares a `size` field, which no
function in src/AVL.c ever reads or writes; the full struct is embedded
separately below as `AVLNodeS` to make the size field's evolution
observable.) -/
inductive AVLNode (α : Type) where
  | nil : AVLNode α
  | node (data : α) (left right : AVLNode α) (height : Int) : AVLNode α
  deriving DecidableEq, Repr

open AVLNode

/-- C `getHeight`: 0 for NULL, else the stored height field. -/
def getHeight : AVLNode α → Int
  | nil => 0
  | node _ _ _ h => h

/-- C `getBalance`: 0 for NULL, else height(left) - height(right). -/
def getBalance : AVLNode α → Int
  | nil => 0
  | node _ l r _ => getHeight l - getHeight r

/-- C `updateHeight`: recompute the root's height field from its children
(in C this mutates the node; here it rebuilds it). No-op on NULL. -/
def updateHeight : AVLNode α → AVLNode α
  | nil => nil
  | node d l r _ => node d l r (1 + max (getHeight l) (getHeight r))

/-- C `createNode`: a fresh leaf with height 1. -/
def createNode (d : α) : AVLNode α :=
  node d nil nil 1

/-- C `rotateRight`: if the node or its left child is NULL, return the input
unchanged; otherwise promote the left child (`pivot`), reattach `pivot->right`
as the node's new left child, and recompute both heights, node first. -/
def rotateRight : AVLNode α → AVLNode α
  | nil => nil
  | node d nil r h => node d nil r h
  | node d (node pd pl pr ph) r h =>
    let n := updateHeight (node d pr r h)
    updateHeight (node pd pl n ph)

/-- C `rotateLeft`: mirror image of `rotateRight`. -/
def rotateLeft : AVLNode α → AVLNode α
  | nil => nil
  | node d l nil h => node d l nil h
  | node d l (node pd pl pr ph) h =>
    let n := updateHeight (node d l pl h)
    updateHeight (node pd n pr ph)

/-- C `rebalance`: update the node's height, compute the balance factor, then
apply one of the four rotation cases (LL, LR, RR, RL) or return the node. -/
def rebalance : AVLNode α → AVLNode α
  | nil => nil
  | node d l r _ =>
    let h := 1 + max (getHeight l) (getHeight r)
    let balance := getHeight l - getHeight r
    if 1 < balance ∧ 0 ≤ getBalance l then
      rotateRight (node d l r h)
    else if 1 < balance ∧ getBalance l < 0 then
      rotateRight (node d (rotateLeft l) r h)
    else if balance < -1 ∧ getBalance r ≤ 0 then
      rotateLeft (node d l r h)
    else if balance < -1 ∧ 0 < getBalance r then
      rotateLeft (node d l (rotateRight r) h)
    else node d l r h

/-- C `insert`: standard BST insertion guided by `cmp`, rejecting duplicates
(`cmp = 0` returns the node unchanged), rebalancing on the way back up. -/
def insert (cmp : α → α → Int) : AVLNode α → α → AVLNode α
  | nil, v => createNode v
  | node d l r h, v =>
    let c := cmp v d
    if c < 0 then rebalance (node d (insert cmp l v) r h)
    else if 0 < c then rebalance (node d l (insert cmp r v) h)
    else node d l r h

/-- C `search`: three-way descent; returns the matching node's data
(the C function returns the node pointer; NULL becomes `none`). -/
def search (cmp : α → α → Int) : AVLNode α → α → Option α
  | nil, _ => none
  | node d l r _, v =>
    let c := cmp v d
    if c = 0 then some d
    else if c < 0 then search cmp l v
    else search cmp r v

/-- C `findMin`: walk left while a left child exists; NULL gives NULL.
The C function returns the node pointer; we return the minimum node's data,
the only field `delete` and the tests observe. -/
def findMin : AVLNode α → Option α
  | nil => none
  | node d l _ _ =>
    match l with
    | nil => some d
    | node _ _ _ _ => findMin l

/-- C `delete`: standard BST deletion with `cmp`, rebalancing each node on the
way back up.  `hasFree` models whether the caller supplied a `free_func_t`;
the second component lists, in order, the data values passed to it.
At the target: with at most one child, release the data (if a release
capability was supplied) and return the remaining child (possibly NULL)
without rebalancing, exactly like the C early returns; with two children,
copy the in-order successor's data into the node, release the old data, and
recursively delete the successor's data from the right subtree passing no
release capability (NULL in C). -/
def delete (cmp : α → α → Int) (hasFree : Bool) : AVLNode α → α → AVLNode α × List α
  | nil, _ => (nil, [])
  | node d l r h, v =>
    let c := cmp v d
    if c < 0 then
      let res := delete cmp hasFree l v
      (rebalance (node d res.1 r h), res.2)
    else if 0 < c then
      let res := delete cmp hasFree r v
      (rebalance (node d l res.1 h), res.2)
    else
      match l, r with
      | nil, _ => (r, if hasFree then [d] else [])
      | node ld ll lr lh, nil => (node ld ll lr lh, if hasFree then [d] else [])
      | node ld ll lr lh, node rd rl rr rh =>
        match findMin (node rd rl rr rh) with
        | none => (nil, [])
        | some m =>
          let res := delete cmp false (node rd rl rr rh) m
          (rebalance (node m (node ld ll lr lh) res.1 h),
           (if hasFree then [d] else []) ++ res.2)

/-- C `getTreeSize`: recursive node count. -/
def getTreeSize : AVLNode α → Int
  | nil => 0
  | node _ l r _ => 1 + getTreeSize l + getTreeSize r

/-- C `isValidBST`: every node's data must lie strictly inside the open
interval inherited from its ancestors; a NULL bound (`none`) is no bound. -/
def isValidBST (cmp : α → α → Int) : AVLNode α → Option α → Option α → Bool
  | nil, _, _ => true
  | node d l r _, mn, mx =>
    if (match mn with
        | some m => decide (cmp d m ≤ 0)
        | none => false) ||
       (match mx with
        | some m => decide (0 ≤ cmp d m)
        | none => false) then false
    else isValidBST cmp l mn (some d) && isValidBST cmp r (some d) mx

/-- C `isValidAVL`: balance factor within ±1 and stored height consistent with
the children's stored heights, at every node. -/
def isValidAVL : AVLNode α → Bool
  | nil => true
  | node _ l r h =>
    let balance := getHeight l - getHeight r
    if 1 < |balance| then false
    else if h ≠ 1 + max (getHeight l) (getHeight r) then false
    else isValidAVL l && isValidAVL r

/-- Values of a subtree in the order printed by `inorderTraversal`. -/
def inorder : AVLNode α → List α
  | nil => []
  | node d l r _ => inorder l ++ d :: inorder r

/-- Left child (NULL for NULL), i.e. the C expression `node->left`. -/
def leftChild : AVLNode α → AVLNode α
  | nil => nil
  | node _ l _ _ => l

/-- Right child (NULL for NULL), i.e. the C expression `node->right`. -/
def rightChild : AVLNode α → AVLNode α
  | nil => nil
  | node _ _ r _ => r

/-- The C assignment `node->left = l`; no-op on NULL. -/
def withLeft : AVLNode α → AVLNode α → AVLNode α
  | nil, _ => nil
  | node d _ r h, l => node d l r h

/-- The C assignment `node->right = r`; no-op on NULL. -/
def withRight : AVLNode α → AVLNode α → AVLNode α
  | nil, _ => nil
  | node d l _ h, r => node d l r h

/-- The four-case rebalancing policy exactly as the specification words it:
after recomputing the node's height, if balance > 1 and the left child's
balance is negative, first left-rotate the left child then right-rotate the
node; if balance > 1 otherwise, right-rotate the node directly; symmetrically
for balance < -1 with right-then-left rotation for the right-left case; and if
the balance is within ±1 return the node unchanged.  Written from the spec's
words, to be compared with `rebalance` above which is written from the code. -/
def rebalancePolicy (t : AVLNode α) : AVLNode α :=
  let n := updateHeight t
  let b := getBalance n
  if 1 < b then
    if getBalance (leftChild n) < 0 then
      rotateRight (withLeft n (rotateLeft (leftChild n)))
    else rotateRight n
  else if b < -1 then
    if 0 < getBalance (rightChild n) then
      rotateLeft (withRight n (rotateRight (rightChild n)))
    else rotateLeft n
  else n

/-- The comparator is the sign-function of a strict total order: `cmp a b` is
negative / zero / positive exactly when `a < b` / `a = b` / `b < a`. -/
def CmpRespects [LinearOrder α] (cmp : α → α → Int) : Prop :=
  ∀ a b, (cmp a b < 0 ↔ a < b) ∧ (cmp a b = 0 ↔ a = b)

/-- The AVL invariant on stored fields: every stored height equals
1 + max of the children's heights, and every balance factor is within ±1.
This is what `isValidAVL` decides. -/
def Avl : AVLNode α → Prop
  | nil => True
  | node _ l r h =>
      Avl l ∧ Avl r ∧ h = 1 + max (getHeight l) (getHeight r) ∧
        |getHeight l - getHeight r| ≤ 1

/-- `p` holds for every data value in the subtree. -/
def AllT (p : α → Prop) : AVLNode α → Prop
  | nil => True
  | node d l r _ => p d ∧ AllT p l ∧ AllT p r

/-- The binary-search-tree ordering invariant. -/
def Bst [LinearOrder α] : AVLNode α → Prop
  | nil => True
  | node d l r _ =>
      AllT (fun x => x < d) l ∧ AllT (fun x => d < x) r ∧ Bst l ∧ Bst r

/-- One public mutating operation: an insertion, or a deletion together with
the choice of whether a release capability (`free_func_t`) is supplied. -/
inductive Op (α : Type) where
  | ins (v : α)
  | del (v : α) (hasFree : Bool)
  deriving DecidableEq, Repr

/-- Apply one operation to a tree root, reassigning the root as the C calling
convention requires. -/
def applyOp (cmp : α → α → Int) (t : AVLNode α) : Op α → AVLNode α
  | Op.ins v => insert cmp t v
  | Op.del v f => (delete cmp f t v).1

/-- Run a finite sequence of operations starting from the empty tree. -/
def applyOps (cmp : α → α → Int) (ops : List (Op α)) : AVLNode α :=
  ops.foldl (applyOp cmp) nil

/-- One step of the inserted-and-not-subsequently-deleted bookkeeping. -/
def liveStep [DecidableEq α] (acc : List α) : Op α → List α
  | Op.ins v => v :: acc
  | Op.del v _ => acc.filter (fun x => decide (x ≠ v))

/-- The values that have been inserted and not subsequently deleted, read off
the operation sequence alone (a deletion removes the value; re-insertion may
add it back). -/
def liveValues [DecidableEq α] (ops : List (Op α)) : List α :=
  ops.foldl liveStep []

/-- test.c `int_compare`: `(ia > ib) - (ia < ib)`. -/
def int_compare (a b : Int) : Int :=
  (if b < a then (1 : Int) else 0) - (if a < b then 1 else 0)

/-! ## The full AVL.h struct and the order-statistics layer

AVL.h declares a per-node `size` field together with `getSize`/`updateSize`
prototypes, src/test.c asserts exact sizes through `getSize`, and the README
documents `getSize` as the O(1) node count — but no function in src/AVL.c
ever writes that field: `createNode` (AVL.c:24-37) initializes data, children
and height only, the rotations (AVL.c:40-67) and `rebalance` (AVL.c:70-101)
recompute only heights, and `insert`/`delete` never call `updateSize`.  The
definitions below re-embed the src/AVL.c mutators over the full struct, with
each node's size field carried around exactly as the C code leaves it, so
that the fate of the size invariant can be stated and settled.  The
order-statistics functions `findKthSmallest`, `findKthLargest` and `getRank`
exercised by src/test.c are genuinely absent from src (the README lists rank
operations as TODO); those alone are modelled from the specification
(§4.7). -/

/-- The full AVL.h node struct including its `size` field. -/
inductive AVLNodeS (α : Type) where
  | nil : AVLNodeS α
  | node (data : α) (left right : AVLNodeS α) (height size : Int) : AVLNodeS α
  deriving DecidableEq, Repr

/-- C `getHeight` over the full struct: 0 for NULL. -/
def getHeightS : AVLNodeS α → Int
  | AVLNodeS.nil => 0
  | AVLNodeS.node _ _ _ h _ => h

/-- Modelled from the spec: `getSize`, 0 for an absent node, else the stored
size field (declared in AVL.h and asserted by src/test.c; its one-line body
is not in src/AVL.c). -/
def getSize : AVLNodeS α → Int
  | AVLNodeS.nil => 0
  | AVLNodeS.node _ _ _ _ s => s

/-- C `getBalance` over the full struct: reads only the height fields. -/
def getBalanceS : AVLNodeS α → Int
  | AVLNodeS.nil => 0
  | AVLNodeS.node _ l r _ _ => getHeightS l - getHeightS r

/-- C `updateHeight` over the full struct: recomputes the height field; the
size field is untouched, exactly as in src/AVL.c, which never writes it. -/
def updateHeightS : AVLNodeS α → AVLNodeS α
  | AVLNodeS.nil => AVLNodeS.nil
  | AVLNodeS.node d l r _ s =>
      AVLNodeS.node d l r (1 + max (getHeightS l) (getHeightS r)) s

/-- C `createNode` (AVL.c:24-37) over the full struct: data, children and
height (= 1) are set, but the `size` field is never initialized — the node
carries whatever value the allocation left in that field, made explicit here
as the `junk` parameter. -/
def createNodeC (d : α) (junk : Int) : AVLNodeS α :=
  AVLNodeS.node d AVLNodeS.nil AVLNodeS.nil 1 junk

/-- C `rotateRight` (AVL.c:40-52) over the full struct: guarded no-op on an
absent left child, otherwise relink and recompute heights, node then pivot;
each node keeps its stored size (the C code performs no size update). -/
def rotateRightC : AVLNodeS α → AVLNodeS α
  | AVLNodeS.nil => AVLNodeS.nil
  | AVLNodeS.node d AVLNodeS.nil r h s => AVLNodeS.node d AVLNodeS.nil r h s
  | AVLNodeS.node d (AVLNodeS.node pd pl pr ph ps) r h s =>
    let n := updateHeightS (AVLNodeS.node d pr r h s)
    updateHeightS (AVLNodeS.node pd pl n ph ps)

/-- C `rotateLeft` (AVL.c:55-67) over the full struct, mirror image of
`rotateRightC`; sizes again carried unchanged. -/
def rotateLeftC : AVLNodeS α → AVLNodeS α
  | AVLNodeS.nil => AVLNodeS.nil
  | AVLNodeS.node d l AVLNodeS.nil h s => AVLNodeS.node d l AVLNodeS.nil h s
  | AVLNodeS.node d l (AVLNodeS.node pd pl pr ph ps) h s =>
    let n := updateHeightS (AVLNodeS.node d l pl h s)
    updateHeightS (AVLNodeS.node pd n pr ph ps)

/-- C `rebalance` (AVL.c:70-101) over the full struct: updates the node's
height — never its size — then applies the four rotation cases. -/
def rebalanceC : AVLNodeS α → AVLNodeS α
  | AVLNodeS.nil => AVLNodeS.nil
  | AVLNodeS.node d l r _ s =>
    let h := 1 + max (getHeightS l) (getHeightS r)
    let balance := getHeightS l - getHeightS r
    if 1 < balance ∧ 0 ≤ getBalanceS l then
      rotateRightC (AVLNodeS.node d l r h s)
    else if 1 < balance ∧ getBalanceS l < 0 then
      rotateRightC (AVLNodeS.node d (rotateLeftC l) r h s)
    else if balance < -1 ∧ getBalanceS r ≤ 0 then
      rotateLeftC (AVLNodeS.node d l r h s)
    else if balance < -1 ∧ 0 < getBalanceS r then
      rotateLeftC (AVLNodeS.node d l (rotateRightC r) h s)
    else AVLNodeS.node d l r h s

/-- C `insert` (AVL.c:104-119) over the full struct; `junk` stands for the
uninitialized size field of the node the insertion may allocate. -/
def insertC (cmp : α → α → Int) (junk : Int) : AVLNodeS α → α → AVLNodeS α
  | AVLNodeS.nil, v => createNodeC v junk
  | AVLNodeS.node d l r h s, v =>
    let c := cmp v d
    if c < 0 then rebalanceC (AVLNodeS.node d (insertC cmp junk l v) r h s)
    else if 0 < c then rebalanceC (AVLNodeS.node d l (insertC cmp junk r v) h s)
    else AVLNodeS.node d l r h s

/-- Executable check of the per-node size invariant
size(n) = 1 + size(left) + size(right). -/
def sizeOKb : AVLNodeS α → Bool
  | AVLNodeS.nil => true
  | AVLNodeS.node _ l r _ s =>
      decide (s = 1 + getSize l + getSize r) && sizeOKb l && sizeOKb r

/-- In-order value sequence of a size-carrying subtree. -/
def inorderS : AVLNodeS α → List α
  | AVLNodeS.nil => []
  | AVLNodeS.node d l r _ _ => inorderS l ++ d :: inorderS r

/-- `p` holds for every data value in the size-carrying subtree. -/
def AllTS (p : α → Prop) : AVLNodeS α → Prop
  | AVLNodeS.nil => True
  | AVLNodeS.node d l r _ _ => p d ∧ AllTS p l ∧ AllTS p r

/-- Binary-search-tree ordering for size-carrying nodes. -/
def BstS [LinearOrder α] : AVLNodeS α → Prop
  | AVLNodeS.nil => True
  | AVLNodeS.node d l r _ _ =>
      AllTS (fun x => x < d) l ∧ AllTS (fun x => d < x) r ∧ BstS l ∧ BstS r

/-- The size invariant: every stored size field equals
1 + size(left) + size(right). -/
def SizeOK : AVLNodeS α → Prop
  | AVLNodeS.nil => True
  | AVLNodeS.node _ l r _ s =>
      s = 1 + getSize l + getSize r ∧ SizeOK l ∧ SizeOK r

/-- Modelled from the spec: `findKthSmallest` — for k outside [1, size(root)]
return an absent result; otherwise use size(left) at each node to decide
whether the k-th smallest is in the left subtree (same k), the current node
(k = size(left) + 1), or the right subtree (k minus left-size minus one).
(Called by src/test.c, not implemented in src/AVL.c; C returns the node
pointer, modelled as the node's data.) -/
def findKthSmallest : AVLNodeS α → Int → Option α
  | AVLNodeS.nil, _ => none
  | AVLNodeS.node d l r _ s, k =>
    if k < 1 ∨ s < k then none
    else
      let ls := getSize l
      if k ≤ ls then findKthSmallest l k
      else if k = ls + 1 then some d
      else findKthSmallest r (k - ls - 1)

/-- Modelled from the spec: `findKthLargest`, mirror image of
`findKthSmallest` using the right subtree's size.  (Called by src/test.c,
not implemented in src/AVL.c.) -/
def findKthLargest : AVLNodeS α → Int → Option α
  | AVLNodeS.nil, _ => none
  | AVLNodeS.node d l r _ s, k =>
    if k < 1 ∨ s < k then none
    else
      let rs := getSize r
      if k ≤ rs then findKthLargest r k
      else if k = rs + 1 then some d
      else findKthLargest l (k - rs - 1)

/-- Modelled from the spec: `getRank` — rank is the count of stored elements
strictly less than the value plus one if the value is present, else 0:
descend by comparison, accumulating 1 + size(left) when descending right,
propagating 0 when the value is not found.  (Called by src/test.c, not
implemented in src/AVL.c.) -/
def getRank (cmp : α → α → Int) : AVLNodeS α → α → Int
  | AVLNodeS.nil, _ => 0
  | AVLNodeS.node d l r _ _, v =>
    let c := cmp v d
    if c = 0 then getSize l + 1
    else if c < 0 then getRank cmp l v
    else
      let rr := getRank cmp r v
      if rr = 0 then 0 else getSize l + 1 + rr

/-! ## Theorems -/

/-- test.c's `int_compare` is the sign function of the order on `Int`. -/
theorem int_compare_respects : CmpRespects int_compare := by
  intro a b
  constructor <;> (simp only [int_compare]; split_ifs <;> omega)

/-- A comparator respecting the order is positive exactly on reversed pairs. -/
theorem cmp_pos_iff [LinearOrder α] {cmp : α → α → Int} (hc : CmpRespects cmp)
    (a b : α) : 0 < cmp a b ↔ b < a := by
  obtain ⟨h1, h2⟩ := hc a b
  constructor
  · intro hpos
    rcases lt_trichotomy a b with hab | hab | hab
    · exact absurd (h1.mpr hab) (by omega)
    · subst hab
      exact absurd (h2.mpr rfl) (by omega)
    · exact hab
  · intro hba
    rcases lt_trichotomy (cmp a b) 0 with hp | hp | hp
    · exact absurd (h1.mp hp) (not_lt.mpr hba.le)
    · rw [h2.mp hp] at hba
      exact absurd hba (lt_irrefl b)
    · exact hp

/-- C3: `rebalance` implements exactly the specification's four-case policy
(LL, LR, RR, RL, or unchanged when the balance is within ±1). -/
theorem rebalance_eq_policy (t : AVLNode α) : rebalance t = rebalancePolicy t := by
  cases t with
  | nil => rfl
  | node d l r h =>
    simp only [rebalance, rebalancePolicy, updateHeight, getBalance, leftChild,
      rightChild, withLeft, withRight, getHeight]
    split_ifs <;> first | rfl | omega

/-- C9: a rotation whose required child is absent is a no-op returning the
input unchanged. -/
theorem rotate_absent_child_noop (t : AVLNode α) :
    (leftChild t = nil → rotateRight t = t) ∧
    (rightChild t = nil → rotateLeft t = t) := by
  constructor
  · intro hl
    cases t with
    | nil => rfl
    | node d l r h =>
      cases l with
      | nil => rfl
      | node _ _ _ _ => simp [leftChild] at hl
  · intro hr
    cases t with
    | nil => rfl
    | node d l r h =>
      cases r with
      | nil => rfl
      | node _ _ _ _ => simp [rightChild] at hr

/-- Witness for C9 at a concrete single-node tree. -/
theorem rotate_absent_child_noop_witness :
    rotateRight (node (5 : Int) nil nil 1) = node (5 : Int) nil nil 1 ∧
    rotateLeft (node (5 : Int) nil nil 1) = node (5 : Int) nil nil 1 :=
  ⟨(rotate_absent_child_noop (node (5 : Int) nil nil 1)).1 rfl,
   (rotate_absent_child_noop (node (5 : Int) nil nil 1)).2 rfl⟩

/-- C10: on a node with a present left child whose height fields are
consistent, a right rotation followed by a left rotation restores the original
subtree exactly (same root, same links, same height fields). -/
theorem rotateLeft_rotateRight_id (d pd : α) (pl pr r : AVLNode α) (ph h : Int)
    (hph : ph = 1 + max (getHeight pl) (getHeight pr))
    (hh : h = 1 + max ph (getHeight r)) :
    rotateLeft (rotateRight (node d (node pd pl pr ph) r h)) =
      node d (node pd pl pr ph) r h := by
  subst hph
  subst hh
  simp [rotateRight, rotateLeft, updateHeight, getHeight]

/-- Witness for C10 at a concrete two-node tree. -/
theorem rotateLeft_rotateRight_id_witness :
    rotateLeft (rotateRight (node (7 : Int) (node 3 nil nil 1) nil 2)) =
      node (7 : Int) (node 3 nil nil 1) nil 2 :=
  rotateLeft_rotateRight_id 7 3 nil nil nil 1 2 (by decide) (by decide)

/-- Stored heights of a tree satisfying the AVL invariant are nonnegative. -/
theorem avl_height_nonneg : ∀ t : AVLNode α, Avl t → 0 ≤ getHeight t := by
  intro t ht
  induction t with
  | nil => simp [getHeight]
  | node d l r h ihl ihr =>
    obtain ⟨hl, hr, hh, _⟩ := ht
    have h1 := ihl hl
    have h2 := ihr hr
    simp only [getHeight]
    omega

/-- A tree of positive stored height is a node. -/
theorem height_pos_node {t : AVLNode α} (hpos : 0 < getHeight t) :
    ∃ d l r h, t = node d l r h := by
  cases t with
  | nil => simp [getHeight] at hpos
  | node d l r h => exact ⟨d, l, r, h, rfl⟩

/-- Right rotation preserves the in-order value sequence. -/
theorem rotateRight_inorder (t : AVLNode α) : inorder (rotateRight t) = inorder t := by
  cases t with
  | nil => rfl
  | node d l r h =>
    cases l with
    | nil => rfl
    | node pd pl pr ph => simp [rotateRight, inorder, updateHeight]

/-- Left rotation preserves the in-order value sequence. -/
theorem rotateLeft_inorder (t : AVLNode α) : inorder (rotateLeft t) = inorder t := by
  cases t with
  | nil => rfl
  | node d l r h =>
    cases r with
    | nil => rfl
    | node pd pl pr ph => simp [rotateLeft, inorder, updateHeight]

/-- Rebalancing preserves the in-order value sequence. -/
theorem rebalance_inorder (t : AVLNode α) : inorder (rebalance t) = inorder t := by
  cases t with
  | nil => rfl
  | node d l r h =>
    simp only [rebalance]
    split_ifs <;>
      simp [rotateRight_inorder, rotateLeft_inorder, inorder]

/-- `AllT` is membership in the in-order sequence, pointwise. -/
theorem allT_iff (p : α → Prop) :
    ∀ t : AVLNode α, AllT p t ↔ ∀ x ∈ inorder t, p x := by
  intro t
  induction t with
  | nil => simp [AllT, inorder]
  | node d l r h ihl ihr =>
    simp only [AllT, inorder, ihl, ihr, List.mem_append, List.mem_cons]
    constructor
    · rintro ⟨hd, hl, hr⟩ x (hx | rfl | hx)
      · exact hl x hx
      · exact hd
      · exact hr x hx
    · intro hall
      exact ⟨hall d (Or.inr (Or.inl rfl)),
        fun x hx => hall x (Or.inl hx),
        fun x hx => hall x (Or.inr (Or.inr hx))⟩

/-- The BST invariant is equivalent to the in-order sequence being strictly
sorted. -/
theorem bst_iff_pairwise [LinearOrder α] :
    ∀ t : AVLNode α, Bst t ↔ (inorder t).Pairwise (· < ·) := by
  intro t
  induction t with
  | nil => simp [Bst, inorder]
  | node d l r h ihl ihr =>
    simp only [Bst, inorder, List.pairwise_append, List.pairwise_cons, ihl, ihr,
      allT_iff, List.mem_cons]
    constructor
    · rintro ⟨hld, hdr, hl, hr⟩
      refine ⟨hl, ⟨hdr, hr⟩, ?_⟩
      rintro a ha b (rfl | hb)
      · exact hld a ha
      · exact lt_trans (hld a ha) (hdr b hb)
    · rintro ⟨hl, ⟨hdr, hr⟩, hcross⟩
      exact ⟨fun a ha => hcross a ha d (Or.inl rfl), hdr, hl, hr⟩

/-- Rebalancing preserves the BST invariant. -/
theorem rebalance_bst [LinearOrder α] (t : AVLNode α) (hb : Bst t) :
    Bst (rebalance t) := by
  rw [bst_iff_pairwise, rebalance_inorder]
  rw [bst_iff_pairwise] at hb
  exact hb

/-- `getHeight` on nil, as a rewrite rule. -/
@[simp] theorem getHeight_nil : getHeight (nil : AVLNode α) = 0 := rfl

/-- `getHeight` on a node, as a rewrite rule. -/
@[simp] theorem getHeight_node (d : α) (l r : AVLNode α) (h : Int) :
    getHeight (node d l r h) = h := rfl

/-- `getBalance` on a node, as a rewrite rule. -/
@[simp] theorem getBalance_node (d : α) (l r : AVLNode α) (h : Int) :
    getBalance (node d l r h) = getHeight l - getHeight r := rfl

/-- Core rebalancing lemma: on a node whose subtrees satisfy the AVL invariant
and whose stored heights differ by at most 2, `rebalance` restores the AVL
invariant; the result's height is the recomputed height 1 + max, except that
a rotation (which only fires at height difference exactly 2) may lower it by
one. -/
theorem rebalance_avl (d : α) (l r : AVLNode α) (h : Int)
    (hal : Avl l) (har : Avl r)
    (hb : |getHeight l - getHeight r| ≤ 2) :
    Avl (rebalance (node d l r h)) ∧
      (getHeight (rebalance (node d l r h)) = 1 + max (getHeight l) (getHeight r) ∨
        ((getHeight l - getHeight r = 2 ∨ getHeight r - getHeight l = 2) ∧
         getHeight (rebalance (node d l r h)) = max (getHeight l) (getHeight r))) := by
  have hln := avl_height_nonneg l hal
  have hrn := avl_height_nonneg r har
  rw [abs_le] at hb
  simp only [rebalance]
  split_ifs with h1 h2 h3 h4
  · -- LL case: 1 < balance and the left child is not right-heavy
    obtain ⟨h1a, h1b⟩ := h1
    obtain ⟨dl, ll, lr, hlf, rfl⟩ := height_pos_node (t := l) (by omega)
    obtain ⟨hall, halr, hlh, hlb⟩ := hal
    rw [abs_le] at hlb
    have hlln := avl_height_nonneg ll hall
    have hlrn := avl_height_nonneg lr halr
    simp only [getHeight_node, getBalance_node] at h1a h1b hb
    simp only [rotateRight, updateHeight, getHeight_node]
    refine ⟨⟨hall, ⟨halr, har, rfl, abs_le.mpr (by (try simp only [getHeight_node]); omega)⟩, rfl,
      abs_le.mpr (by (try simp only [getHeight_node]); omega)⟩, ?_⟩
    try simp only [getHeight_node]
    omega
  · -- LR case: 1 < balance and the left child is right-heavy
    obtain ⟨h2a, h2b⟩ := h2
    obtain ⟨dl, ll, lr, hlf, rfl⟩ := height_pos_node (t := l) (by omega)
    obtain ⟨hall, halr, hlh, hlb⟩ := hal
    rw [abs_le] at hlb
    have hlln := avl_height_nonneg ll hall
    have hlrn := avl_height_nonneg lr halr
    simp only [getHeight_node, getBalance_node] at h2a h2b hb
    obtain ⟨dlr, lrl, lrr, hlrf, rfl⟩ := height_pos_node (t := lr) (by omega)
    obtain ⟨halrl, halrr, hlrh, hlrb⟩ := halr
    rw [abs_le] at hlrb
    have hlrln := avl_height_nonneg lrl halrl
    have hlrrn := avl_height_nonneg lrr halrr
    simp only [getHeight_node] at h2b hlh hlb hln
    simp only [rotateLeft, rotateRight, updateHeight, getHeight_node]
    refine ⟨⟨⟨hall, halrl, rfl, abs_le.mpr (by (try simp only [getHeight_node]); omega)⟩,
      ⟨halrr, har, rfl, abs_le.mpr (by (try simp only [getHeight_node]); omega)⟩, rfl,
      abs_le.mpr (by (try simp only [getHeight_node]); omega)⟩, ?_⟩
    try simp only [getHeight_node]
    omega
  · -- RR case: balance < -1 and the right child is not left-heavy
    obtain ⟨h3a, h3b⟩ := h3
    obtain ⟨rd, rl, rr, hrf, rfl⟩ := height_pos_node (t := r) (by omega)
    obtain ⟨harl, harr, hrh, hrb⟩ := har
    rw [abs_le] at hrb
    have hrln := avl_height_nonneg rl harl
    have hrrn := avl_height_nonneg rr harr
    simp only [getHeight_node, getBalance_node] at h3a h3b hb
    simp only [rotateLeft, updateHeight, getHeight_node]
    refine ⟨⟨⟨hal, harl, rfl, abs_le.mpr (by (try simp only [getHeight_node]); omega)⟩, harr, rfl,
      abs_le.mpr (by (try simp only [getHeight_node]); omega)⟩, ?_⟩
    try simp only [getHeight_node]
    omega
  · -- RL case: balance < -1 and the right child is left-heavy
    obtain ⟨h4a, h4b⟩ := h4
    obtain ⟨rd, rl, rr, hrf, rfl⟩ := height_pos_node (t := r) (by omega)
    obtain ⟨harl, harr, hrh, hrb⟩ := har
    rw [abs_le] at hrb
    have hrln := avl_height_nonneg rl harl
    have hrrn := avl_height_nonneg rr harr
    simp only [getHeight_node, getBalance_node] at h4a h4b hb
    obtain ⟨rld, rll, rlr, hrlf, rfl⟩ := height_pos_node (t := rl) (by omega)
    obtain ⟨harll, harlr, hrlh, hrlb⟩ := harl
    rw [abs_le] at hrlb
    have hrlln := avl_height_nonneg rll harll
    have hrlrn := avl_height_nonneg rlr harlr
    simp only [getHeight_node] at h4b hrh hrb hrn
    simp only [rotateLeft, rotateRight, updateHeight, getHeight_node]
    refine ⟨⟨⟨hal, harll, rfl, abs_le.mpr (by (try simp only [getHeight_node]); omega)⟩,
      ⟨harlr, harr, rfl, abs_le.mpr (by (try simp only [getHeight_node]); omega)⟩, rfl,
      abs_le.mpr (by (try simp only [getHeight_node]); omega)⟩, ?_⟩
    try simp only [getHeight_node]
    omega
  · -- no rotation needed: balance already within ±1
    have hb1 : ¬(1 < getHeight l - getHeight r) := by
      intro hgt
      rcases le_or_lt 0 (getBalance l) with hx | hx
      · exact h1 ⟨hgt, hx⟩
      · exact h2 ⟨hgt, hx⟩
    have hb2 : ¬(getHeight l - getHeight r < -1) := by
      intro hgt
      rcases le_or_lt (getBalance r) 0 with hx | hx
      · exact h3 ⟨hgt, hx⟩
      · exact h4 ⟨hgt, hx⟩
    exact ⟨⟨hal, har, rfl, abs_le.mpr (by (try simp only [getHeight_node]); omega)⟩, Or.inl rfl⟩

/-- A node already satisfying the AVL invariant is returned unchanged by
`rebalance` (its height recomputation writes back the same value and no
rotation condition fires). -/
theorem rebalance_id (d : α) (l r : AVLNode α) (h : Int)
    (ha : Avl (node d l r h)) : rebalance (node d l r h) = node d l r h := by
  obtain ⟨hal, har, hh, hb⟩ := ha
  rw [abs_le] at hb
  simp only [rebalance]
  split_ifs with h1 h2 h3 h4
  · exact absurd h1.1 (by omega)
  · exact absurd h2.1 (by omega)
  · exact absurd h3.1 (by omega)
  · exact absurd h4.1 (by omega)
  · rw [hh]

/-- Insertion preserves the AVL invariant and grows the height by at most 1. -/
theorem insert_avl (cmp : α → α → Int) (v : α) :
    ∀ t : AVLNode α, Avl t →
      Avl (insert cmp t v) ∧
        (getHeight (insert cmp t v) = getHeight t ∨
         getHeight (insert cmp t v) = getHeight t + 1) := by
  intro t
  induction t with
  | nil =>
    intro _
    refine ⟨⟨trivial, trivial, by simp, by simp⟩, Or.inr (by simp [insert, createNode])⟩
  | node d l r h ihl ihr =>
    intro ha
    obtain ⟨hal, har, hh, hb⟩ := ha
    rw [abs_le] at hb
    simp only [getHeight_node] at hb ⊢
    simp only [insert]
    split_ifs with hc1 hc2
    · obtain ⟨ha', hh'⟩ := ihl hal
      have h2 := rebalance_avl d (insert cmp l v) r h ha' har
        (by rw [abs_le]; omega)
      have h3 := h2.2
      simp only [getHeight_node] at h3
      exact ⟨h2.1, by omega⟩
    · obtain ⟨ha', hh'⟩ := ihr har
      have h2 := rebalance_avl d l (insert cmp r v) h hal ha'
        (by rw [abs_le]; omega)
      have h3 := h2.2
      simp only [getHeight_node] at h3
      exact ⟨h2.1, by omega⟩
    · exact ⟨⟨hal, har, hh, abs_le.mpr hb⟩, Or.inl rfl⟩

/-- Membership after insertion: the inserted value plus the old members. -/
theorem insert_mem [LinearOrder α] {cmp : α → α → Int} (hc : CmpRespects cmp)
    (v x : α) : ∀ t : AVLNode α,
    (x ∈ inorder (insert cmp t v) ↔ x = v ∨ x ∈ inorder t) := by
  intro t
  induction t with
  | nil => simp [insert, createNode, inorder]
  | node d l r h ihl ihr =>
    simp only [insert]
    split_ifs with hc1 hc2
    · rw [rebalance_inorder]
      simp only [inorder, List.mem_append, List.mem_cons, ihl]
      tauto
    · rw [rebalance_inorder]
      simp only [inorder, List.mem_append, List.mem_cons, ihr]
      tauto
    · have hvd : v = d := (hc v d).2.mp (by omega)
      subst hvd
      simp only [inorder, List.mem_append, List.mem_cons]
      tauto

/-- Insertion preserves the BST invariant. -/
theorem insert_bst [LinearOrder α] {cmp : α → α → Int} (hc : CmpRespects cmp)
    (v : α) : ∀ t : AVLNode α, Bst t → Bst (insert cmp t v) := by
  intro t
  induction t with
  | nil =>
    intro _
    simp [insert, createNode, Bst, AllT]
  | node d l r h ihl ihr =>
    intro hb
    obtain ⟨hld, hdr, hl, hr⟩ := hb
    simp only [insert]
    split_ifs with hc1 hc2
    · apply rebalance_bst
      have hvd : v < d := (hc v d).1.mp hc1
      refine ⟨?_, hdr, ihl hl, hr⟩
      rw [allT_iff]
      intro x hx
      rcases (insert_mem hc v x l).mp hx with rfl | hx2
      · exact hvd
      · exact (allT_iff _ l).mp hld x hx2
    · apply rebalance_bst
      have hvd : d < v := (cmp_pos_iff hc v d).mp hc2
      refine ⟨hld, ?_, hl, ihr hr⟩
      rw [allT_iff]
      intro x hx
      rcases (insert_mem hc v x r).mp hx with rfl | hx2
      · exact hvd
      · exact (allT_iff _ r).mp hdr x hx2
    · exact ⟨hld, hdr, hl, hr⟩

/-- A node's in-order sequence is nonempty. -/
theorem inorder_ne_nil (d : α) (l r : AVLNode α) (h : Int) :
    inorder (node d l r h) ≠ [] := by
  simp only [inorder]
  intro hx
  rcases List.append_eq_nil.mp hx with ⟨_, h2⟩
  exact List.cons_ne_nil _ _ h2

/-- `findMin` returns the head of the in-order sequence. -/
theorem findMin_eq_head : ∀ t : AVLNode α, findMin t = (inorder t).head? := by
  intro t
  induction t with
  | nil => rfl
  | node d l r h ihl ihr =>
    cases l with
    | nil => simp [findMin, inorder]
    | node dl ll lr hl =>
      have hstep : findMin (node d (node dl ll lr hl) r h) =
          findMin (node dl ll lr hl) := rfl
      rw [hstep, ihl]
      have houter : inorder (node d (node dl ll lr hl) r h) =
          inorder (node dl ll lr hl) ++ d :: inorder r := rfl
      rw [houter]
      cases hx : inorder (node dl ll lr hl) with
      | nil => exact absurd hx (inorder_ne_nil dl ll lr hl)
      | cons a as => simp

/-- On a BST node, `findMin` yields a member below every member. -/
theorem findMin_spec [LinearOrder α] (d : α) (l r : AVLNode α) (h : Int)
    (hb : Bst (node d l r h)) :
    ∃ m, findMin (node d l r h) = some m ∧ m ∈ inorder (node d l r h) ∧
      ∀ x ∈ inorder (node d l r h), m ≤ x := by
  obtain ⟨m, ms, hms⟩ : ∃ m ms, inorder (node d l r h) = m :: ms := by
    cases hx : inorder (node d l r h) with
    | nil => exact absurd hx (inorder_ne_nil d l r h)
    | cons a as => exact ⟨a, as, rfl⟩
  have hf := findMin_eq_head (node d l r h)
  rw [hms] at hf
  rw [bst_iff_pairwise, hms, List.pairwise_cons] at hb
  refine ⟨m, hf, by rw [hms]; exact List.mem_cons_self m ms, ?_⟩
  intro x hx
  rw [hms] at hx
  rcases List.mem_cons.mp hx with rfl | hx2
  · exact le_refl x
  · exact (hb.1 x hx2).le

/-- `findMin` of a node always yields a value. -/
theorem findMin_node_some (d : α) (l r : AVLNode α) (h : Int) :
    ∃ m, findMin (node d l r h) = some m := by
  obtain ⟨m, ms, hms⟩ : ∃ m ms, inorder (node d l r h) = m :: ms := by
    cases hx : inorder (node d l r h) with
    | nil => exact absurd hx (inorder_ne_nil d l r h)
    | cons a as => exact ⟨a, as, rfl⟩
  refine ⟨m, ?_⟩
  rw [findMin_eq_head, hms]
  rfl

/-- `delete` on NULL returns NULL and releases nothing. -/
theorem delete_nil_eq (cmp : α → α → Int) (f : Bool) (v : α) :
    delete cmp f nil v = (nil, []) := rfl

/-- `delete`, descend-left case. -/
theorem delete_lt (cmp : α → α → Int) (f : Bool) (d v : α) (l r : AVLNode α)
    (h : Int) (hc : cmp v d < 0) :
    delete cmp f (node d l r h) v =
      (rebalance (node d (delete cmp f l v).1 r h), (delete cmp f l v).2) := by
  rw [delete.eq_def]
  simp only [hc, if_pos]

/-- `delete`, descend-right case. -/
theorem delete_gt (cmp : α → α → Int) (f : Bool) (d v : α) (l r : AVLNode α)
    (h : Int) (hc : 0 < cmp v d) :
    delete cmp f (node d l r h) v =
      (rebalance (node d l (delete cmp f r v).1 h), (delete cmp f r v).2) := by
  have hc1 : ¬cmp v d < 0 := by omega
  rw [delete.eq_def]
  simp only [hc, hc1, if_neg, if_pos, if_false]

/-- `delete`, target found with absent left child: return the right child
(possibly NULL) and release the target's data if a capability is present. -/
theorem delete_found_noleft (cmp : α → α → Int) (f : Bool) (d v : α)
    (r : AVLNode α) (h : Int) (hc : cmp v d = 0) :
    delete cmp f (node d nil r h) v = (r, if f then [d] else []) := by
  rw [delete.eq_def]
  simp only [hc, lt_irrefl, if_neg, if_false]

/-- `delete`, target found with a left child and absent right child. -/
theorem delete_found_noright (cmp : α → α → Int) (f : Bool) (d v ld : α)
    (ll lr : AVLNode α) (lh h : Int) (hc : cmp v d = 0) :
    delete cmp f (node d (node ld ll lr lh) nil h) v =
      (node ld ll lr lh, if f then [d] else []) := by
  rw [delete.eq_def]
  simp only [hc, lt_irrefl, if_neg, if_false]

/-- `delete`, target found with two children: move the in-order successor's
data into the node, delete it from the right subtree with no release
capability, rebalance; release only the target's original data. -/
theorem delete_found_two (cmp : α → α → Int) (f : Bool) (d v ld rd m : α)
    (ll lr rl rr : AVLNode α) (lh rh h : Int) (hc : cmp v d = 0)
    (hm : findMin (node rd rl rr rh) = some m) :
    delete cmp f (node d (node ld ll lr lh) (node rd rl rr rh) h) v =
      (rebalance (node m (node ld ll lr lh)
         (delete cmp false (node rd rl rr rh) m).1 h),
       (if f then [d] else []) ++ (delete cmp false (node rd rl rr rh) m).2) := by
  rw [delete.eq_def]
  simp only [hc, lt_irrefl, if_neg, if_false]
  rw [hm]

/-- With no release capability supplied, `delete` releases nothing. -/
theorem delete_false_rel (cmp : α → α → Int) :
    ∀ (t : AVLNode α) (v : α), (delete cmp false t v).2 = [] := by
  intro t
  induction t with
  | nil => intro v; rfl
  | node d l r h ihl ihr =>
    intro v
    rcases lt_trichotomy (cmp v d) 0 with hc | hc | hc
    · rw [delete_lt cmp false d v l r h hc]
      exact ihl v
    · cases l with
      | nil =>
        rw [delete_found_noleft cmp false d v r h hc]
        rfl
      | node ld ll lr lh =>
        cases r with
        | nil =>
          rw [delete_found_noright cmp false d v ld ll lr lh h hc]
          rfl
        | node rd rl rr rh =>
          obtain ⟨m, hm⟩ := findMin_node_some rd rl rr rh
          rw [delete_found_two cmp false d v ld rd m ll lr rl rr lh rh h hc hm]
          simp [ihr m]
    · rw [delete_gt cmp false d v l r h hc]
      exact ihr v

/-- Deletion preserves the AVL invariant and shrinks the height by at most 1. -/
theorem delete_avl (cmp : α → α → Int) :
    ∀ (t : AVLNode α) (v : α) (f : Bool), Avl t →
      Avl (delete cmp f t v).1 ∧
        (getHeight (delete cmp f t v).1 = getHeight t ∨
         getHeight (delete cmp f t v).1 + 1 = getHeight t) := by
  intro t
  induction t with
  | nil => intro v f _; exact ⟨trivial, Or.inl rfl⟩
  | node d l r h ihl ihr =>
    intro v f ha
    obtain ⟨hal, har, hh, hb⟩ := ha
    rw [abs_le] at hb
    have hln := avl_height_nonneg l hal
    have hrn := avl_height_nonneg r har
    rcases lt_trichotomy (cmp v d) 0 with hcv | hcv | hcv
    · rw [delete_lt cmp f d v l r h hcv]
      obtain ⟨ha', hh'⟩ := ihl v f hal
      have h2 := rebalance_avl d (delete cmp f l v).1 r h ha' har
        (by rw [abs_le]; omega)
      have h3 := h2.2
      refine ⟨h2.1, ?_⟩
      simp only [getHeight_node]
      omega
    · cases l with
      | nil =>
        rw [delete_found_noleft cmp f d v r h hcv]
        refine ⟨har, ?_⟩
        simp only [getHeight_nil] at hh
        simp only [getHeight_node]
        omega
      | node ld ll lr lh =>
        cases r with
        | nil =>
          rw [delete_found_noright cmp f d v ld ll lr lh h hcv]
          refine ⟨hal, ?_⟩
          simp only [getHeight_nil, getHeight_node] at hh hln
          simp only [getHeight_node]
          omega
        | node rd rl rr rh =>
          obtain ⟨m, hm⟩ := findMin_node_some rd rl rr rh
          rw [delete_found_two cmp f d v ld rd m ll lr rl rr lh rh h hcv hm]
          obtain ⟨ha', hh'⟩ := ihr m false har
          simp only [getHeight_node] at hb hh hh' hln hrn
          have h2 := rebalance_avl m (node ld ll lr lh)
            (delete cmp false (node rd rl rr rh) m).1 h hal ha'
            (by rw [abs_le]; simp only [getHeight_node]; omega)
          have h3 := h2.2
          simp only [getHeight_node] at h3
          refine ⟨h2.1, ?_⟩
          simp only [getHeight_node]
          omega
    · rw [delete_gt cmp f d v l r h hcv]
      obtain ⟨ha', hh'⟩ := ihr v f har
      have h2 := rebalance_avl d l (delete cmp f r v).1 h hal ha'
        (by rw [abs_le]; omega)
      have h3 := h2.2
      refine ⟨h2.1, ?_⟩
      simp only [getHeight_node]
      omega

/-- `inorder` on nil, as a rewrite rule. -/
theorem inorder_nil : inorder (nil : AVLNode α) = [] := rfl

/-- Membership in a node's in-order sequence, one level. -/
theorem mem_inorder_node (x d : α) (l r : AVLNode α) (h : Int) :
    x ∈ inorder (node d l r h) ↔ x ∈ inorder l ∨ x = d ∨ x ∈ inorder r := by
  have hstep : inorder (node d l r h) = inorder l ++ d :: inorder r := rfl
  rw [hstep]
  simp

/-- Membership after deletion: the old members except the deleted value. -/
theorem delete_mem [LinearOrder α] {cmp : α → α → Int} (hc : CmpRespects cmp) :
    ∀ (t : AVLNode α) (v : α) (f : Bool) (x : α), Bst t →
      (x ∈ inorder (delete cmp f t v).1 ↔ x ∈ inorder t ∧ x ≠ v) := by
  intro t
  induction t with
  | nil =>
    intro v f x _
    simp [delete_nil_eq, inorder]
  | node d l r h ihl ihr =>
    intro v f x hbst
    obtain ⟨hld, hdr, hl, hr⟩ := hbst
    have hldm := (allT_iff _ l).mp hld
    have hdrm := (allT_iff _ r).mp hdr
    rcases lt_trichotomy (cmp v d) 0 with hcv | hcv | hcv
    · have hvd : v < d := (hc v d).1.mp hcv
      rw [delete_lt cmp f d v l r h hcv]
      simp only [rebalance_inorder, inorder, List.mem_append, List.mem_cons]
      rw [ihl v f x hl]
      constructor
      · rintro (⟨hx, hne⟩ | rfl | hx)
        · exact ⟨Or.inl hx, hne⟩
        · exact ⟨Or.inr (Or.inl rfl), fun he => absurd (he ▸ hvd) (lt_irrefl _)⟩
        · exact ⟨Or.inr (Or.inr hx),
            fun he => absurd (he ▸ lt_trans hvd (hdrm x hx)) (lt_irrefl _)⟩
      · rintro ⟨hx | rfl | hx, hne⟩
        · exact Or.inl ⟨hx, hne⟩
        · exact Or.inr (Or.inl rfl)
        · exact Or.inr (Or.inr hx)
    · have hvd : v = d := (hc v d).2.mp hcv
      cases l with
      | nil =>
        rw [delete_found_noleft cmp f d v r h hcv]
        conv_rhs => rw [mem_inorder_node]
        simp only [inorder_nil, List.not_mem_nil, false_or]
        constructor
        · intro hx
          refine ⟨Or.inr hx, fun he => ?_⟩
          rw [hvd] at he
          exact absurd (he ▸ hdrm x hx) (lt_irrefl _)
        · rintro ⟨rfl | hx, hne⟩
          · exact absurd hvd.symm hne
          · exact hx
      | node ld ll lr lh =>
        cases r with
        | nil =>
          rw [delete_found_noright cmp f d v ld ll lr lh h hcv]
          conv_rhs => rw [mem_inorder_node]
          simp only [inorder_nil, List.not_mem_nil, or_false]
          constructor
          · intro hx
            refine ⟨Or.inl hx, fun he => ?_⟩
            rw [hvd] at he
            exact absurd (he ▸ hldm x hx) (lt_irrefl _)
          · rintro ⟨hx | rfl, hne⟩
            · exact hx
            · exact absurd hvd.symm hne
        | node rd rl rr rh =>
          obtain ⟨m, hm, hmem, hmin⟩ := findMin_spec rd rl rr rh hr
          rw [delete_found_two cmp f d v ld rd m ll lr rl rr lh rh h hcv hm]
          have hdm : d < m := hdrm m hmem
          simp only [rebalance_inorder]
          conv_lhs => rw [mem_inorder_node]
          conv_rhs => rw [mem_inorder_node]
          rw [ihr m false x hr]
          have hxl : ∀ y, y ∈ inorder (node ld ll lr lh) → y ≠ v := by
            intro y hy he
            rw [hvd] at he
            exact absurd (he ▸ hldm y hy) (lt_irrefl _)
          have hxr : ∀ y, y ∈ inorder (node rd rl rr rh) → y ≠ v := by
            intro y hy he
            rw [hvd] at he
            exact absurd (he ▸ hdrm y hy) (lt_irrefl _)
          constructor
          · rintro (hx | rfl | ⟨hx, hne⟩)
            · exact ⟨Or.inl hx, hxl x hx⟩
            · exact ⟨Or.inr (Or.inr hmem), hxr x hmem⟩
            · exact ⟨Or.inr (Or.inr hx), hxr x hx⟩
          · rintro ⟨hx | rfl | hx, hne⟩
            · exact Or.inl hx
            · rw [hvd] at hne
              exact absurd rfl hne
            · by_cases hxm : x = m
              · exact Or.inr (Or.inl hxm)
              · exact Or.inr (Or.inr ⟨hx, hxm⟩)
    · have hvd : d < v := (cmp_pos_iff hc v d).mp hcv
      rw [delete_gt cmp f d v l r h hcv]
      simp only [rebalance_inorder, inorder, List.mem_append, List.mem_cons]
      rw [ihr v f x hr]
      constructor
      · rintro (hx | rfl | ⟨hx, hne⟩)
        · exact ⟨Or.inl hx,
            fun he => absurd (he ▸ lt_trans (hldm x hx) hvd) (lt_irrefl _)⟩
        · exact ⟨Or.inr (Or.inl rfl), fun he => absurd (he ▸ hvd) (lt_irrefl _)⟩
        · exact ⟨Or.inr (Or.inr hx), hne⟩
      · rintro ⟨hx | rfl | hx, hne⟩
        · exact Or.inl hx
        · exact Or.inr (Or.inl rfl)
        · exact Or.inr (Or.inr ⟨hx, hne⟩)

/-- Deletion preserves the BST invariant. -/
theorem delete_bst [LinearOrder α] {cmp : α → α → Int} (hc : CmpRespects cmp) :
    ∀ (t : AVLNode α) (v : α) (f : Bool), Bst t → Bst (delete cmp f t v).1 := by
  intro t
  induction t with
  | nil => intro v f _; exact trivial
  | node d l r h ihl ihr =>
    intro v f hbst
    obtain ⟨hld, hdr, hl, hr⟩ := hbst
    rcases lt_trichotomy (cmp v d) 0 with hcv | hcv | hcv
    · rw [delete_lt cmp f d v l r h hcv]
      refine rebalance_bst (node d (delete cmp f l v).1 r h) ⟨?_, hdr, ihl v f hl, hr⟩
      rw [allT_iff]
      intro x hx
      exact (allT_iff _ l).mp hld x ((delete_mem hc l v f x hl).mp hx).1
    · cases l with
      | nil =>
        rw [delete_found_noleft cmp f d v r h hcv]
        exact hr
      | node ld ll lr lh =>
        cases r with
        | nil =>
          rw [delete_found_noright cmp f d v ld ll lr lh h hcv]
          exact hl
        | node rd rl rr rh =>
          obtain ⟨m, hm, hmem, hmin⟩ := findMin_spec rd rl rr rh hr
          rw [delete_found_two cmp f d v ld rd m ll lr rl rr lh rh h hcv hm]
          have hdm : d < m := (allT_iff _ _).mp hdr m hmem
          refine rebalance_bst
            (node m (node ld ll lr lh) (delete cmp false (node rd rl rr rh) m).1 h)
            ⟨?_, ?_, hl, ihr m false hr⟩
          · rw [allT_iff]
            intro x hx
            exact lt_trans ((allT_iff _ _).mp hld x hx) hdm
          · rw [allT_iff]
            intro x hx
            obtain ⟨hxr, hxm⟩ :=
              (delete_mem hc (node rd rl rr rh) m false x hr).mp hx
            exact lt_of_le_of_ne (hmin x hxr) (Ne.symm hxm)
    · rw [delete_gt cmp f d v l r h hcv]
      refine rebalance_bst (node d l (delete cmp f r v).1 h) ⟨hld, ?_, hl, ihr v f hr⟩
      rw [allT_iff]
      intro x hx
      exact (allT_iff _ r).mp hdr x ((delete_mem hc r v f x hr).mp hx).1

/-- On a BST, `search` succeeds exactly on members. -/
theorem search_some_iff [LinearOrder α] {cmp : α → α → Int}
    (hc : CmpRespects cmp) :
    ∀ (t : AVLNode α) (v : α), Bst t →
      (search cmp t v ≠ none ↔ v ∈ inorder t) := by
  intro t
  induction t with
  | nil =>
    intro v _
    simp [search, inorder]
  | node d l r h ihl ihr =>
    intro v hb
    obtain ⟨hld, hdr, hl, hr⟩ := hb
    rw [mem_inorder_node]
    simp only [search]
    rcases lt_trichotomy (cmp v d) 0 with hcv | hcv | hcv
    · have hvd : v < d := (hc v d).1.mp hcv
      rw [if_neg (by omega), if_pos hcv, ihl v hl]
      constructor
      · exact fun hx => Or.inl hx
      · rintro (hx | rfl | hx)
        · exact hx
        · exact absurd hvd (lt_irrefl v)
        · exact absurd (lt_trans hvd ((allT_iff _ r).mp hdr v hx)) (lt_irrefl v)
    · have hvd : v = d := (hc v d).2.mp hcv
      rw [if_pos hcv]
      simp only [ne_eq, reduceCtorEq, not_false_iff, true_iff]
      exact Or.inr (Or.inl hvd)
    · have hvd : d < v := (cmp_pos_iff hc v d).mp hcv
      rw [if_neg (by omega), if_neg (by omega), ihr v hr]
      constructor
      · exact fun hx => Or.inr (Or.inr hx)
      · rintro (hx | rfl | hx)
        · exact absurd (lt_trans ((allT_iff _ l).mp hld v hx) hvd) (lt_irrefl v)
        · exact absurd hvd (lt_irrefl v)
        · exact hx

/-- The `isValidAVL` validator decides exactly the `Avl` invariant. -/
theorem isValidAVL_iff : ∀ t : AVLNode α, isValidAVL t = true ↔ Avl t := by
  intro t
  induction t with
  | nil => simp [isValidAVL, Avl]
  | node d l r h ihl ihr =>
    simp only [isValidAVL]
    split_ifs with h1 h2
    · simp only [Bool.false_eq_true, false_iff]
      rintro ⟨_, _, _, hb⟩
      exact absurd h1 (not_lt.mpr hb)
    · simp only [Bool.false_eq_true, false_iff]
      rintro ⟨_, _, hh, _⟩
      exact h2 hh
    · rw [Bool.and_eq_true, ihl, ihr]
      constructor
      · rintro ⟨ha, hb⟩
        exact ⟨ha, hb, not_ne_iff.mp h2, not_lt.mp h1⟩
      · rintro ⟨ha, hb, _, _⟩
        exact ⟨ha, hb⟩

/-- On a BST whose members respect the supplied open bounds, the `isValidBST`
validator accepts. -/
theorem isValidBST_of_bst [LinearOrder α] {cmp : α → α → Int}
    (hc : CmpRespects cmp) :
    ∀ (t : AVLNode α), Bst t → ∀ (mn mx : Option α),
      (∀ lo, mn = some lo → ∀ x ∈ inorder t, lo < x) →
      (∀ hi, mx = some hi → ∀ x ∈ inorder t, x < hi) →
      isValidBST cmp t mn mx = true := by
  intro t
  induction t with
  | nil => intro _ mn mx _ _; rfl
  | node d l r h ihl ihr =>
    intro hb mn mx hmn hmx
    obtain ⟨hld, hdr, hl, hr⟩ := hb
    have hdmem : d ∈ inorder (node d l r h) :=
      (mem_inorder_node d d l r h).mpr (Or.inr (Or.inl rfl))
    simp only [isValidBST]
    rw [if_neg]
    · rw [Bool.and_eq_true]
      constructor
      · apply ihl hl
        · intro lo hlo x hx
          exact hmn lo hlo x ((mem_inorder_node x d l r h).mpr (Or.inl hx))
        · rintro hi hhi x hx
          cases hhi
          exact (allT_iff _ l).mp hld x hx
      · apply ihr hr
        · rintro lo hlo x hx
          cases hlo
          exact (allT_iff _ r).mp hdr x hx
        · intro hi hhi x hx
          exact hmx hi hhi x ((mem_inorder_node x d l r h).mpr (Or.inr (Or.inr hx)))
    · intro hcond
      rw [Bool.or_eq_true] at hcond
      rcases hcond with hcond | hcond
      · cases mn with
        | none => simp at hcond
        | some lo =>
          simp only [decide_eq_true_eq] at hcond
          have hlt : lo < d := hmn lo rfl d hdmem
          have hpos := (cmp_pos_iff hc d lo).mpr hlt
          omega
      · cases mx with
        | none => simp at hcond
        | some hi =>
          simp only [decide_eq_true_eq] at hcond
          have hlt : d < hi := hmx hi rfl d hdmem
          have hneg := (hc d hi).1.mpr hlt
          omega

/-- Duplicate insertion into a height-consistent balanced tree returns the
very same tree. -/
theorem insert_present_id (cmp : α → α → Int) :
    ∀ (t : AVLNode α) (v : α), Avl t → search cmp t v ≠ none →
      insert cmp t v = t := by
  intro t
  induction t with
  | nil =>
    intro v _ hs
    exact absurd rfl hs
  | node d l r h ihl ihr =>
    intro v ha hs
    obtain ⟨hal, har, hh, hb⟩ := ha
    simp only [search] at hs
    simp only [insert]
    rcases lt_trichotomy (cmp v d) 0 with hcv | hcv | hcv
    · rw [if_neg (by omega), if_pos hcv] at hs
      rw [if_pos hcv, ihl v hal hs]
      exact rebalance_id d l r h ⟨hal, har, hh, hb⟩
    · rw [if_neg (by omega), if_neg (by omega)]
    · rw [if_neg (by omega), if_neg (by omega)] at hs
      rw [if_neg (by omega), if_pos hcv, ihr v har hs]
      exact rebalance_id d l r h ⟨hal, har, hh, hb⟩

/-- C6: inserting a value that compares equal to a value already present in
a valid tree returns the tree identical to before the call: same root, same
structure, and same size (no new node). -/
theorem insert_duplicate_noop (cmp : α → α → Int) (t : AVLNode α) (v : α)
    (hvalid : isValidAVL t = true) (hpresent : search cmp t v ≠ none) :
    insert cmp t v = t ∧ getTreeSize (insert cmp t v) = getTreeSize t := by
  have he := insert_present_id cmp t v ((isValidAVL_iff t).mp hvalid) hpresent
  exact ⟨he, by rw [he]⟩

/-- Witness for C6: inserting the duplicate 2 into a concrete valid tree. -/
theorem insert_duplicate_noop_witness :
    insert int_compare (node (2 : Int) (node 1 nil nil 1) (node 3 nil nil 1) 2) 2 =
        node (2 : Int) (node 1 nil nil 1) (node 3 nil nil 1) 2 ∧
      getTreeSize (insert int_compare
          (node (2 : Int) (node 1 nil nil 1) (node 3 nil nil 1) 2) 2) =
        getTreeSize (node (2 : Int) (node 1 nil nil 1) (node 3 nil nil 1) 2) :=
  insert_duplicate_noop int_compare
    (node (2 : Int) (node 1 nil nil 1) (node 3 nil nil 1) 2) 2
    (by decide) (by decide)

/-- Deleting a value absent from a valid tree returns the tree unchanged and
releases nothing. -/
theorem delete_absent_id (cmp : α → α → Int) :
    ∀ (t : AVLNode α) (v : α) (f : Bool), Avl t → search cmp t v = none →
      delete cmp f t v = (t, []) := by
  intro t
  induction t with
  | nil =>
    intro v f _ _
    rfl
  | node d l r h ihl ihr =>
    intro v f ha hs
    obtain ⟨hal, har, hh, hb⟩ := ha
    simp only [search] at hs
    rcases lt_trichotomy (cmp v d) 0 with hcv | hcv | hcv
    · rw [if_neg (by omega), if_pos hcv] at hs
      rw [delete_lt cmp f d v l r h hcv, ihl v f hal hs]
      simp [rebalance_id d l r h ⟨hal, har, hh, hb⟩]
    · rw [if_pos hcv] at hs
      exact absurd hs (Option.some_ne_none d)
    · rw [if_neg (by omega), if_neg (by omega)] at hs
      rw [delete_gt cmp f d v l r h hcv, ihr v f har hs]
      simp [rebalance_id d l r h ⟨hal, har, hh, hb⟩]

/-- C7: deleting a non-member value is a silent no-op — the tree is returned
unchanged, nothing is released — and deleting from an absent root returns an
absent root. -/
theorem delete_nonmember_noop (cmp : α → α → Int) (t : AVLNode α) (v : α)
    (f : Bool) (hvalid : isValidAVL t = true)
    (habsent : search cmp t v = none) :
    delete cmp f t v = (t, []) ∧
      delete cmp f (nil : AVLNode α) v = (nil, []) :=
  ⟨delete_absent_id cmp t v f ((isValidAVL_iff t).mp hvalid) habsent, rfl⟩

/-- Witness for C7: deleting the absent value 9 from a concrete valid tree. -/
theorem delete_nonmember_noop_witness :
    delete int_compare true
        (node (2 : Int) (node 1 nil nil 1) (node 3 nil nil 1) 2) 9 =
      (node (2 : Int) (node 1 nil nil 1) (node 3 nil nil 1) 2, []) ∧
      delete int_compare true (nil : AVLNode Int) 9 = (nil, []) :=
  delete_nonmember_noop int_compare
    (node (2 : Int) (node 1 nil nil 1) (node 3 nil nil 1) 2) 9 true
    (by decide) (by decide)

/-- C4: deleting a node with two present children finds the in-order
successor with `findMin` of the right subtree, releases exactly the target's
original value (and only when a release capability is present), moves the
successor's value into the node in place, and recursively deletes the
successor from the right subtree with no release capability — which therefore
releases nothing, so the relocated value is never released twice. -/
theorem delete_two_children_spec (cmp : α → α → Int) (f : Bool) (d v : α)
    (l r : AVLNode α) (h : Int) (hv : cmp v d = 0)
    (hl : l ≠ nil) (hr : r ≠ nil) :
    ∃ m, findMin r = some m ∧
      delete cmp f (node d l r h) v =
        (rebalance (node m l (delete cmp false r m).1 h),
         if f then [d] else []) ∧
      (delete cmp false r m).2 = [] := by
  cases l with
  | nil => exact absurd rfl hl
  | node ld ll lr lh =>
    cases r with
    | nil => exact absurd rfl hr
    | node rd rl rr rh =>
      obtain ⟨m, hm⟩ := findMin_node_some rd rl rr rh
      refine ⟨m, hm, ?_, delete_false_rel cmp _ m⟩
      rw [delete_found_two cmp f d v ld rd m ll lr rl rr lh rh h hv hm]
      rw [delete_false_rel cmp (node rd rl rr rh) m, List.append_nil]

/-- Witness for C4 at a concrete three-node tree with release capability. -/
theorem delete_two_children_spec_witness :
    ∃ m, findMin (node (3 : Int) nil nil 1) = some m ∧
      delete int_compare true
          (node (2 : Int) (node 1 nil nil 1) (node 3 nil nil 1) 2) 2 =
        (rebalance (node m (node (1 : Int) nil nil 1)
           (delete int_compare false (node (3 : Int) nil nil 1) m).1 2),
         if true then [2] else []) ∧
      (delete int_compare false (node (3 : Int) nil nil 1) m).2 = [] :=
  delete_two_children_spec int_compare true 2 2 (node 1 nil nil 1)
    (node 3 nil nil 1) 2 (by decide) (by decide) (by decide)

/-- C1: after any finite sequence of insert/delete operations starting from
the empty tree, with a comparator that is the sign function of a strict total
order, both validators accept the resulting tree: `isValidBST` with unbounded
limits and `isValidAVL`.  (Every prefix of a sequence is itself a sequence,
so this covers the state after every intermediate operation as well.) -/
theorem validators_after_ops [LinearOrder α] (cmp : α → α → Int)
    (hc : CmpRespects cmp) (ops : List (Op α)) :
    isValidBST cmp (applyOps cmp ops) none none = true ∧
      isValidAVL (applyOps cmp ops) = true := by
  have key : ∀ (ops : List (Op α)) (t : AVLNode α), Avl t → Bst t →
      Avl (List.foldl (applyOp cmp) t ops) ∧
        Bst (List.foldl (applyOp cmp) t ops) := by
    intro ops
    induction ops with
    | nil =>
      intro t ha hb
      exact ⟨ha, hb⟩
    | cons op rest ih =>
      intro t ha hb
      cases op with
      | ins v =>
        exact ih (insert cmp t v) (insert_avl cmp v t ha).1 (insert_bst hc v t hb)
      | del v f =>
        exact ih (delete cmp f t v).1 (delete_avl cmp t v f ha).1
          (delete_bst hc t v f hb)
  obtain ⟨ha, hb⟩ := key ops nil trivial trivial
  refine ⟨?_, (isValidAVL_iff (applyOps cmp ops)).mpr ha⟩
  exact isValidBST_of_bst hc (applyOps cmp ops) hb none none
    (fun lo hlo => by cases hlo) (fun hi hhi => by cases hhi)

/-- Witness for C1 at a concrete operation sequence. -/
theorem validators_after_ops_witness :
    isValidBST int_compare
        (applyOps int_compare
          ([Op.ins 2, Op.ins 1, Op.ins 3, Op.del 2 true] : List (Op Int)))
        none none = true ∧
      isValidAVL (applyOps int_compare
        ([Op.ins 2, Op.ins 1, Op.ins 3, Op.del 2 true] : List (Op Int))) = true :=
  validators_after_ops int_compare int_compare_respects
    ([Op.ins 2, Op.ins 1, Op.ins 3, Op.del 2 true] : List (Op Int))

/-- C5: after any operation sequence from the empty tree, `search` returns a
present result exactly for the values that were inserted and not subsequently
deleted, and an absent result for every other value. -/
theorem search_roundtrip [LinearOrder α] [DecidableEq α] (cmp : α → α → Int)
    (hc : CmpRespects cmp) (ops : List (Op α)) (v : α) :
    (search cmp (applyOps cmp ops) v ≠ none ↔ v ∈ liveValues ops) := by
  have key : ∀ (ops : List (Op α)) (t : AVLNode α) (acc : List α), Bst t →
      (∀ x, x ∈ inorder t ↔ x ∈ acc) →
      Bst (List.foldl (applyOp cmp) t ops) ∧
        (∀ x, x ∈ inorder (List.foldl (applyOp cmp) t ops) ↔
          x ∈ List.foldl liveStep acc ops) := by
    intro ops
    induction ops with
    | nil =>
      intro t acc hb hmem
      exact ⟨hb, hmem⟩
    | cons op rest ih =>
      intro t acc hb hmem
      cases op with
      | ins w =>
        apply ih (insert cmp t w) (w :: acc) (insert_bst hc w t hb)
        intro x
        rw [insert_mem hc w x t, List.mem_cons, hmem x]
      | del w f =>
        apply ih (delete cmp f t w).1 (acc.filter (fun x => decide (x ≠ w)))
          (delete_bst hc t w f hb)
        intro x
        rw [delete_mem hc t w f x hb, List.mem_filter, hmem x,
          decide_eq_true_eq]
  obtain ⟨hb, hmem⟩ := key ops nil [] trivial (by intro x; simp [inorder])
  rw [search_some_iff hc (applyOps cmp ops) v hb]
  exact hmem v

/-- Witness for C5: 7 was inserted and stays live, after deleting 5. -/
theorem search_roundtrip_witness :
    search int_compare
        (applyOps int_compare
          ([Op.ins 5, Op.ins 7, Op.del 5 true] : List (Op Int))) 7 ≠ none ↔
      (7 : Int) ∈ liveValues ([Op.ins 5, Op.ins 7, Op.del 5 true] : List (Op Int)) :=
  search_roundtrip int_compare int_compare_respects
    ([Op.ins 5, Op.ins 7, Op.del 5 true] : List (Op Int)) 7

/-- `getSize` on a node, as a rewrite rule. -/
@[simp] theorem getSize_node (d : α) (l r : AVLNodeS α) (h s : Int) :
    getSize (AVLNodeS.node d l r h s) = s := rfl

/-- `getSize` on nil, as a rewrite rule. -/
@[simp] theorem getSize_nil : getSize (AVLNodeS.nil : AVLNodeS α) = 0 := rfl

/-- The executable size check decides the size invariant. -/
theorem sizeOKb_iff : ∀ t : AVLNodeS α, sizeOKb t = true ↔ SizeOK t := by
  intro t
  induction t with
  | nil => simp [sizeOKb, SizeOK]
  | node d l r h s ihl ihr =>
    simp [sizeOKb, SizeOK, ihl, ihr, Bool.and_eq_true, decide_eq_true_eq,
      and_assoc]

/-- C2 is violated by src/AVL.c (code_bug): the claim requires every public
operation to leave size(n) = 1 + size(left) + size(right) at every node, each
rotation to recompute both height and size, and a new leaf to have size 1.
The code never writes the field: a leaf created while the uninitialized
memory holds 0 has size 0, not 1; and inserting 3 into the size-correct tree
{1, 2} (heights and sizes all consistent) triggers the RR rotation and
returns a tree whose size fields are wrong — at the old and the new subtree
root — whatever value the newly allocated node's uninitialized size field
happened to hold. -/
theorem size_invariant_violated :
    getSize (createNodeC (5 : Int) 0) = 0 ∧
    sizeOKb (AVLNodeS.node (1 : Int) AVLNodeS.nil
      (AVLNodeS.node 2 AVLNodeS.nil AVLNodeS.nil 1 1) 2 2) = true ∧
    insertC int_compare 7
        (AVLNodeS.node (1 : Int) AVLNodeS.nil
          (AVLNodeS.node 2 AVLNodeS.nil AVLNodeS.nil 1 1) 2 2) 3 =
      AVLNodeS.node (2 : Int) (AVLNodeS.node 1 AVLNodeS.nil AVLNodeS.nil 1 2)
        (AVLNodeS.node 3 AVLNodeS.nil AVLNodeS.nil 1 7) 2 1 ∧
    (∀ junk : Int, sizeOKb (insertC int_compare junk
      (AVLNodeS.node (1 : Int) AVLNodeS.nil
        (AVLNodeS.node 2 AVLNodeS.nil AVLNodeS.nil 1 1) 2 2) 3) = false) := by
  refine ⟨rfl, by decide, by decide, ?_⟩
  intro junk
  show sizeOKb
    (AVLNodeS.node (2 : Int) (AVLNodeS.node 1 AVLNodeS.nil AVLNodeS.nil 1 2)
      (AVLNodeS.node 3 AVLNodeS.nil AVLNodeS.nil 1 junk) 2 1) = false
  simp [sizeOKb]

/-- `AllTS` is membership in the in-order sequence, pointwise. -/
theorem allTS_iff (p : α → Prop) :
    ∀ t : AVLNodeS α, AllTS p t ↔ ∀ x ∈ inorderS t, p x := by
  intro t
  induction t with
  | nil => simp [AllTS, inorderS]
  | node d l r h s ihl ihr =>
    simp only [AllTS, inorderS, ihl, ihr, List.mem_append, List.mem_cons]
    constructor
    · rintro ⟨hd, hl, hr⟩ x (hx | rfl | hx)
      · exact hl x hx
      · exact hd
      · exact hr x hx
    · intro hall
      exact ⟨hall d (Or.inr (Or.inl rfl)),
        fun x hx => hall x (Or.inl hx),
        fun x hx => hall x (Or.inr (Or.inr hx))⟩

/-- Membership in a size-carrying node's in-order sequence, one level. -/
theorem mem_inorderS_node (x d : α) (l r : AVLNodeS α) (h s : Int) :
    x ∈ inorderS (AVLNodeS.node d l r h s) ↔
      x ∈ inorderS l ∨ x = d ∨ x ∈ inorderS r := by
  have hstep : inorderS (AVLNodeS.node d l r h s) =
      inorderS l ++ d :: inorderS r := rfl
  rw [hstep]
  simp

/-- Size fields of a size-correct tree are nonnegative. -/
theorem sizeS_nonneg : ∀ t : AVLNodeS α, SizeOK t → 0 ≤ getSize t := by
  intro t
  induction t with
  | nil => intro _; simp
  | node d l r h s ihl ihr =>
    intro ht
    obtain ⟨hs, hl, hr⟩ := ht
    have h1 := ihl hl
    have h2 := ihr hr
    simp only [getSize_node]
    omega

/-- Out-of-range k gives an absent k-th-smallest result. -/
theorem kthS_none : ∀ (t : AVLNodeS α) (k : Int),
    (k < 1 ∨ getSize t < k) → findKthSmallest t k = none := by
  intro t k hk
  cases t with
  | nil => rfl
  | node d l r h s =>
    simp only [getSize_node] at hk
    simp only [findKthSmallest]
    rw [if_pos hk]

/-- Out-of-range k gives an absent k-th-largest result. -/
theorem kthLargestS_none : ∀ (t : AVLNodeS α) (k : Int),
    (k < 1 ∨ getSize t < k) → findKthLargest t k = none := by
  intro t k hk
  cases t with
  | nil => rfl
  | node d l r h s =>
    simp only [getSize_node] at hk
    simp only [findKthLargest]
    rw [if_pos hk]

/-- A k-th-smallest result is a member of the subtree. -/
theorem kthS_mem : ∀ (t : AVLNodeS α) (k : Int) (v : α),
    findKthSmallest t k = some v → v ∈ inorderS t := by
  intro t
  induction t with
  | nil =>
    intro k v hv
    exact Option.noConfusion hv
  | node d l r h s ihl ihr =>
    intro k v hv
    simp only [findKthSmallest] at hv
    by_cases h1 : k < 1 ∨ s < k
    · rw [if_pos h1] at hv
      exact Option.noConfusion hv
    · rw [if_neg h1] at hv
      by_cases h2 : k ≤ getSize l
      · rw [if_pos h2] at hv
        exact (mem_inorderS_node v d l r h s).mpr (Or.inl (ihl k v hv))
      · rw [if_neg h2] at hv
        by_cases h3 : k = getSize l + 1
        · rw [if_pos h3] at hv
          obtain rfl := Option.some.inj hv
          exact (mem_inorderS_node d d l r h s).mpr (Or.inr (Or.inl rfl))
        · rw [if_neg h3] at hv
          exact (mem_inorderS_node v d l r h s).mpr
            (Or.inr (Or.inr (ihr (k - getSize l - 1) v hv)))

/-- Rank of the k-th smallest element is k, for every k in range. -/
theorem kth_rank_consistent [LinearOrder α] {cmp : α → α → Int}
    (hc : CmpRespects cmp) :
    ∀ t : AVLNodeS α, SizeOK t → BstS t → ∀ k : Int,
      1 ≤ k → k ≤ getSize t →
      ∃ v, findKthSmallest t k = some v ∧ getRank cmp t v = k := by
  intro t
  induction t with
  | nil =>
    intro _ _ k hk1 hk2
    simp only [getSize_nil] at hk2
    omega
  | node d l r h s ihl ihr =>
    intro hsz hbst k hk1 hk2
    obtain ⟨hs, hsl, hsr⟩ := hsz
    obtain ⟨hld, hdr, hbl, hbr⟩ := hbst
    have hnl := sizeS_nonneg l hsl
    have hnr := sizeS_nonneg r hsr
    simp only [getSize_node] at hk2
    simp only [findKthSmallest]
    rw [if_neg (by omega)]
    by_cases hkl : k ≤ getSize l
    · rw [if_pos hkl]
      obtain ⟨v, hv, hrv⟩ := ihl hsl hbl k hk1 hkl
      refine ⟨v, hv, ?_⟩
      have hvmem : v ∈ inorderS l := kthS_mem l k v hv
      have hvd : v < d := (allTS_iff _ l).mp hld v hvmem
      have hcv : cmp v d < 0 := (hc v d).1.mpr hvd
      simp only [getRank]
      rw [if_neg (by omega), if_pos hcv]
      exact hrv
    · rw [if_neg hkl]
      by_cases hke : k = getSize l + 1
      · rw [if_pos hke]
        refine ⟨d, rfl, ?_⟩
        simp only [getRank]
        rw [if_pos ((hc d d).2.mpr rfl)]
        omega
      · rw [if_neg hke]
        obtain ⟨v, hv, hrv⟩ := ihr hsr hbr (k - getSize l - 1)
          (by omega) (by omega)
        refine ⟨v, hv, ?_⟩
        have hvmem : v ∈ inorderS r := kthS_mem r _ v hv
        have hvd : d < v := (allTS_iff _ r).mp hdr v hvmem
        have hcv : 0 < cmp v d := (cmp_pos_iff hc v d).mpr hvd
        simp only [getRank]
        rw [if_neg (by omega), if_neg (by omega), hrv, if_neg (by omega)]
        omega

/-- The k-th smallest at the rank of a present value is that value. -/
theorem kth_of_rank [LinearOrder α] {cmp : α → α → Int}
    (hc : CmpRespects cmp) :
    ∀ t : AVLNodeS α, SizeOK t → BstS t → ∀ v, v ∈ inorderS t →
      findKthSmallest t (getRank cmp t v) = some v := by
  intro t
  induction t with
  | nil =>
    intro _ _ v hv
    simp [inorderS] at hv
  | node d l r h s ihl ihr =>
    intro hsz hbst v hv
    obtain ⟨hs, hsl, hsr⟩ := hsz
    obtain ⟨hld, hdr, hbl, hbr⟩ := hbst
    have hnl := sizeS_nonneg l hsl
    have hnr := sizeS_nonneg r hsr
    rw [mem_inorderS_node] at hv
    rcases hv with hvl | rfl | hvr
    · have hvd : v < d := (allTS_iff _ l).mp hld v hvl
      have hcv : cmp v d < 0 := (hc v d).1.mpr hvd
      have hkth := ihl hsl hbl v hvl
      have hrank : getRank cmp (AVLNodeS.node d l r h s) v =
          getRank cmp l v := by
        simp only [getRank]
        rw [if_neg (by omega), if_pos hcv]
      rcases le_or_lt 1 (getRank cmp l v) with hge | hlt
      · rcases le_or_lt (getRank cmp l v) (getSize l) with hle | hgt
        · rw [hrank]
          simp only [findKthSmallest]
          rw [if_neg (by omega), if_pos hle]
          exact hkth
        · rw [kthS_none l _ (Or.inr hgt)] at hkth
          exact Option.noConfusion hkth
      · rw [kthS_none l _ (Or.inl (by omega))] at hkth
        exact Option.noConfusion hkth
    · have hrank : getRank cmp (AVLNodeS.node v l r h s) v =
          getSize l + 1 := by
        simp only [getRank]
        rw [if_pos ((hc v v).2.mpr rfl)]
      rw [hrank]
      simp only [findKthSmallest]
      rw [if_neg (by omega), if_neg (by omega)]
      simp
    · have hvd : d < v := (allTS_iff _ r).mp hdr v hvr
      have hcv : 0 < cmp v d := (cmp_pos_iff hc v d).mpr hvd
      have hkth := ihr hsr hbr v hvr
      rcases le_or_lt 1 (getRank cmp r v) with hge | hlt
      · rcases le_or_lt (getRank cmp r v) (getSize r) with hle | hgt
        · have hrank : getRank cmp (AVLNodeS.node d l r h s) v =
              getSize l + 1 + getRank cmp r v := by
            simp only [getRank]
            rw [if_neg (by omega), if_neg (by omega), if_neg (by omega)]
          rw [hrank]
          simp only [findKthSmallest]
          rw [if_neg (by omega), if_neg (by omega), if_neg (by omega)]
          have harg : getSize l + 1 + getRank cmp r v - getSize l - 1 =
              getRank cmp r v := by omega
          rw [harg]
          exact hkth
        · rw [kthS_none r _ (Or.inr hgt)] at hkth
          exact Option.noConfusion hkth
      · rw [kthS_none r _ (Or.inl (by omega))] at hkth
        exact Option.noConfusion hkth

/-- C8: on any tree satisfying the size and BST invariants, the rank of the
k-th smallest value is k for every k in [1, size]; the k-th smallest at a
present value's rank is that value; and out-of-range k yields an absent
result from both k-th queries, never a fault. -/
theorem order_statistics_spec [LinearOrder α] (cmp : α → α → Int)
    (hc : CmpRespects cmp) (t : AVLNodeS α) (hsz : SizeOK t)
    (hbst : BstS t) :
    (∀ k : Int, 1 ≤ k → k ≤ getSize t →
      ∃ v, findKthSmallest t k = some v ∧ getRank cmp t v = k) ∧
    (∀ v, v ∈ inorderS t → findKthSmallest t (getRank cmp t v) = some v) ∧
    (∀ k : Int, (k < 1 ∨ getSize t < k) →
      findKthSmallest t k = none ∧ findKthLargest t k = none) :=
  ⟨fun k hk1 hk2 => kth_rank_consistent hc t hsz hbst k hk1 hk2,
   fun v hv => kth_of_rank hc t hsz hbst v hv,
   fun k hk => ⟨kthS_none t k hk, kthLargestS_none t k hk⟩⟩

/-- Witness for C8 at a concrete three-node size-correct BST. -/
theorem order_statistics_spec_witness :
    (∃ v, findKthSmallest (AVLNodeS.node (2 : Int)
        (AVLNodeS.node 1 AVLNodeS.nil AVLNodeS.nil 1 1)
        (AVLNodeS.node 3 AVLNodeS.nil AVLNodeS.nil 1 1) 2 3) 2 = some v ∧
      getRank int_compare (AVLNodeS.node (2 : Int)
        (AVLNodeS.node 1 AVLNodeS.nil AVLNodeS.nil 1 1)
        (AVLNodeS.node 3 AVLNodeS.nil AVLNodeS.nil 1 1) 2 3) v = 2) ∧
    findKthSmallest (AVLNodeS.node (2 : Int)
        (AVLNodeS.node 1 AVLNodeS.nil AVLNodeS.nil 1 1)
        (AVLNodeS.node 3 AVLNodeS.nil AVLNodeS.nil 1 1) 2 3)
      (getRank int_compare (AVLNodeS.node (2 : Int)
        (AVLNodeS.node 1 AVLNodeS.nil AVLNodeS.nil 1 1)
        (AVLNodeS.node 3 AVLNodeS.nil AVLNodeS.nil 1 1) 2 3) 3) = some 3 ∧
    (findKthSmallest (AVLNodeS.node (2 : Int)
        (AVLNodeS.node 1 AVLNodeS.nil AVLNodeS.nil 1 1)
        (AVLNodeS.node 3 AVLNodeS.nil AVLNodeS.nil 1 1) 2 3) 5 = none ∧
      findKthLargest (AVLNodeS.node (2 : Int)
        (AVLNodeS.node 1 AVLNodeS.nil AVLNodeS.nil 1 1)
        (AVLNodeS.node 3 AVLNodeS.nil AVLNodeS.nil 1 1) 2 3) 5 = none) := by
  have hsz : SizeOK (AVLNodeS.node (2 : Int)
      (AVLNodeS.node 1 AVLNodeS.nil AVLNodeS.nil 1 1)
      (AVLNodeS.node 3 AVLNodeS.nil AVLNodeS.nil 1 1) 2 3) := by
    refine ⟨by norm_num, ⟨by norm_num, trivial, trivial⟩,
      ⟨by norm_num, trivial, trivial⟩⟩
  have hbst : BstS (AVLNodeS.node (2 : Int)
      (AVLNodeS.node 1 AVLNodeS.nil AVLNodeS.nil 1 1)
      (AVLNodeS.node 3 AVLNodeS.nil AVLNodeS.nil 1 1) 2 3) := by
    refine ⟨⟨by norm_num, trivial, trivial⟩,
      ⟨by norm_num, trivial, trivial⟩, ⟨trivial, trivial, trivial, trivial⟩,
      ⟨trivial, trivial, trivial, trivial⟩⟩
  have hmain := order_statistics_spec int_compare int_compare_respects
    (AVLNodeS.node (2 : Int)
      (AVLNodeS.node 1 AVLNodeS.nil AVLNodeS.nil 1 1)
      (AVLNodeS.node 3 AVLNodeS.nil AVLNodeS.nil 1 1) 2 3) hsz hbst
  exact ⟨hmain.1 2 (by norm_num) (by norm_num),
    hmain.2.1 3 (by decide),
    hmain.2.2 5 (by norm_num)⟩

end AVL
